import Mathlib

/-!
Shallow embedding of `src/project_analyzer.py` (class `ProjectAnalyzer`).

Modelling conventions:
  * Paths are `String`s; the OS is POSIX, so `os.sep = "/"`.
  * `os.path.normpath`, `os.path.join`, `os.path.dirname`, `str.replace`,
    `str.startswith`, `str.endswith`, `str.split` are re-implemented below,
    faithfully to CPython's `posixpath` module, over `String.data`.
  * The filesystem is a finite list of `SrcFile` records; `os.path.exists`
    is membership of the path in that list (directories are not modelled).
  * File content is modelled post-extraction: for a `.py` file, `pyAst` is
    the result of `ast.parse` plus the `ast.walk` loop of
    `_analyze_python_imports` (`none` = the parse raised, `some mods` = the
    module names passed to `_resolve_import`, in order); for a `.dart` file,
    `dartImports` is the list of regex captures of `_analyze_dart_imports`.
    `readable = false` models `open`/`read` raising in `_analyze_imports`.
-/

namespace PA

/-- Python `str.startswith` for a single plain pattern. -/
def strStartsWith (s pre : String) : Bool := pre.data.isPrefixOf s.data

/-- Python `str.endswith` for a single plain pattern. -/
def strEndsWith (s suf : String) : Bool := suf.data.isSuffixOf s.data

/-- Python `str.replace` (all occurrences, left to right, non-overlapping)
on character lists, with a fuel argument to keep the recursion structural.
With `fuel ≥ s.length` and a nonempty pattern this is exactly CPython's
`str.replace`. -/
def replaceAllAux (pat rep : List Char) : Nat → List Char → List Char
  | _, [] => []
  | 0, s => s
  | fuel + 1, c :: rest =>
    if pat.isPrefixOf (c :: rest) then
      rep ++ replaceAllAux pat rep fuel ((c :: rest).drop pat.length)
    else
      c :: replaceAllAux pat rep fuel rest

/-- Python `s.replace(pat, rep)` for nonempty `pat`. -/
def pyReplace (s pat rep : String) : String :=
  String.mk (replaceAllAux pat.data rep.data s.data.length s.data)

/-- Python `s.split('/')` (keeps empty components). -/
def splitSlash : List Char → List (List Char)
  | [] => [[]]
  | c :: rest =>
    let r := splitSlash rest
    if c = '/' then [] :: r
    else
      match r with
      | [] => [[c]]
      | h :: t => (c :: h) :: t

/-- Python `'/'.join(comps)` on character lists. -/
def intercalateSlash : List (List Char) → List Char
  | [] => []
  | [c] => c
  | c :: rest => c ++ '/' :: intercalateSlash rest

/-- CPython `posixpath.normpath`. -/
def normpath (p : String) : String :=
  if p = "" then "." else
  let initSlashes : Nat :=
    if strStartsWith p "/" then
      if strStartsWith p "//" && !(strStartsWith p "///") then 2 else 1
    else 0
  let comps := splitSlash p.data
  let newComps := comps.foldl
    (fun acc comp =>
      if comp = [] ∨ comp = ['.'] then acc
      else if comp ≠ ['.', '.'] ∨ (initSlashes = 0 ∧ acc = []) ∨
          acc.getLast? = some ['.', '.'] then
        acc ++ [comp]
      else acc.dropLast)
    []
  let res := List.replicate initSlashes '/' ++ intercalateSlash newComps
  if res = [] then "." else String.mk res

/-- CPython `posixpath.join` restricted to two arguments; the three-argument
call at line 92 of the source is `joinP (joinP a b) c`. -/
def joinP (a b : String) : String :=
  if strStartsWith b "/" then b
  else if a = "" ∨ strEndsWith a "/" then a ++ b
  else a ++ "/" ++ b

/-- CPython `posixpath.dirname`. -/
def dirname (p : String) : String :=
  let headRev := p.data.reverse.dropWhile (fun c => c ≠ '/')
  if headRev = [] then ""
  else if headRev.all (fun c => c = '/') then String.mk headRev.reverse
  else String.mk ((headRev.dropWhile (fun c => c = '/')).reverse)

/-- The candidate target path computed by `_resolve_import` (lines 83-101):
`.py`-suffixed raw imports are joined to the source file's directory;
`package:`-prefixed ones are joined under `root/lib` after `str.replace`
removes the marker and converts separators; anything else has its dots
replaced by `/` and the literal suffix `.dart` appended. -/
def resolveTarget (root src imp : String) : String :=
  if strEndsWith imp ".py" then
    normpath (joinP (dirname src) imp)
  else if strStartsWith imp "package:" then
    normpath (joinP (joinP root "lib")
      (pyReplace (pyReplace imp "package:" "") "/" "/"))
  else
    normpath (joinP (dirname src) (pyReplace imp "." "/" ++ ".dart"))

/-- One file of the modelled filesystem (see the module docstring). -/
structure SrcFile where
  path : String
  readable : Bool
  pyAst : Option (List String)
  dartImports : List String
deriving DecidableEq

/-- Model of `os.path.exists` over the modelled filesystem. -/
def pathExists (fs : List SrcFile) (p : String) : Bool :=
  fs.any (fun f => f.path == p)

/-- The mutable state accumulated by `_analyze_imports`:
`graph` is `self.file_dependencies` (a `defaultdict(set)`, modelled as an
association list whose keys are created only when an edge is added), and
`used` is `self.used_files` before `_find_unused_files` runs. -/
structure AState where
  graph : List (String × List String)
  used : List String
deriving DecidableEq

/-- Edge insertion `self.file_dependencies[source_file].add(target_path)`
(line 104): set semantics, key created on first insertion. -/
def addEdge : List (String × List String) → String → String → List (String × List String)
  | [], src, tgt => [(src, [tgt])]
  | (k, ts) :: rest, src, tgt =>
    if k = src then (k, if tgt ∈ ts then ts else ts ++ [tgt]) :: rest
    else (k, ts) :: addEdge rest src tgt

/-- Model of `_resolve_import` (lines 81-106): compute the candidate, record an edge
only when the candidate exists on disk. All modelled operations are total,
so the `except` branch at line 105 is unreachable in the model. -/
def resolveImport (fs : List SrcFile) (root : String) (st : AState) (src imp : String) : AState :=
  if pathExists fs (resolveTarget root src imp) then
    { st with graph := addEdge st.graph src (resolveTarget root src imp) }
  else st

/-- Model of `_collect_all_files` (lines 33-40): every file whose name ends in one of
the five collected extensions. -/
def collectAllFiles (fs : List SrcFile) : List String :=
  (fs.filter (fun f =>
    strEndsWith f.path ".py" || strEndsWith f.path ".dart" ||
    strEndsWith f.path ".kt" || strEndsWith f.path ".java" ||
    strEndsWith f.path ".xml")).map SrcFile.path

/-- The body of the per-file loop of `_analyze_imports` (lines 44-57):
open the file (failure = `readable = false`, nothing happens), dispatch on
the extension, then mark the file used. A `.py` parse failure (`pyAst =
none`) is caught inside `_analyze_python_imports`, so the file is still
marked used. -/
def analyzeOne (fs : List SrcFile) (root : String) (st : AState) (p : String) : AState :=
  match fs.find? (fun f => f.path == p) with
  | none => st
  | some f =>
    if f.readable then
      let st1 :=
        if strEndsWith p ".py" then
          match f.pyAst with
          | some mods => mods.foldl (fun s m => resolveImport fs root s p m) st
          | none => st
        else if strEndsWith p ".dart" then
          f.dartImports.foldl (fun s m => resolveImport fs root s p m) st
        else st
      { st1 with used := st1.used ++ [p] }
    else st

/-- Model of `_analyze_imports` (lines 42-57): fold `analyzeOne` over the collected
files, starting from the empty state. -/
def analyzeImports (fs : List SrcFile) (root : String) (allF : List String) : AState :=
  allF.foldl (analyzeOne fs root) ⟨[], []⟩

/-- All target files appearing anywhere in the graph
(`self.file_dependencies.values()`, flattened). -/
def graphTargets (g : List (String × List String)) : List String :=
  (g.map Prod.snd).flatten

/-- The observable outcome of `analyze_project`: DependencyGraph,
FileUniverse (`self.all_files`), UsedSet (`self.used_files` after
`_find_unused_files` has added all graph targets, lines 113-115) and
UnusedSet (`self.unused_files`, line 117). -/
structure Result where
  graph : List (String × List String)
  fileUniverse : Finset String
  usedSet : Finset String
  unusedSet : Finset String

/-- Model of `analyze_project` (lines 26-31) up to the pure results: collect,
scan, classify. -/
def analyzeProject (root : String) (fs : List SrcFile) : Result :=
  let allF := collectAllFiles fs
  let st := analyzeImports fs root allF
  let usedSet := st.used.toFinset ∪ (graphTargets st.graph).toFinset
  { graph := st.graph
    fileUniverse := allF.toFinset
    usedSet := usedSet
    unusedSet := allF.toFinset \ usedSet }

/-- Spec-side formulation of "replacing every dot with the directory
separator" (§4.2 rule 3), written independently of `pyReplace`. -/
def dotToSlash (s : String) : String :=
  String.mk (s.data.map (fun c => if c = '.' then '/' else c))

/-- C1 scenario filesystem: `a.py` whose only statement imports module `b`
(the extractor hands `_resolve_import` the name `"b"`), `b.py` empty,
`c.py` empty. -/
def c1fs : List SrcFile :=
  [⟨"/proj/a.py", true, some ["b"], []⟩,
   ⟨"/proj/b.py", true, some [], []⟩,
   ⟨"/proj/c.py", true, some [], []⟩]

/-- C2 counterexample filesystem: a Dart file importing
`package:app/x.txt`; the target exists on disk but its extension is not
collected, so it is outside FileUniverse. -/
def c2fs : List SrcFile :=
  [⟨"/p/main.dart", true, none, ["package:app/x.txt"]⟩,
   ⟨"/p/lib/app/x.txt", true, none, []⟩]

/-- C2 witness filesystem: a single empty Python file. -/
def c2wfs : List SrcFile := [⟨"/q/a.py", true, some [], []⟩]

/-- C3 witness filesystem: a Dart file importing the sibling `n.py`. -/
def c3fs : List SrcFile :=
  [⟨"/s/m.dart", true, none, ["n.py"]⟩,
   ⟨"/s/n.py", true, some [], []⟩]

/-- C5 scenario filesystem: `main.dart` contains
`import 'package:app/utils.dart';` and `lib/app/utils.dart` exists. -/
def c5fs : List SrcFile :=
  [⟨"/r/main.dart", true, none, ["package:app/utils.dart"]⟩,
   ⟨"/r/lib/app/utils.dart", true, none, []⟩]

/-- C8 witness filesystem: a readable Python file whose content fails to
parse (`ast.parse` raises). -/
def c8fs : List SrcFile := [⟨"/v/bad.py", true, none, []⟩]

/-- C9 witness filesystem: a collected Python file that cannot be
opened/decoded. -/
def c9fs : List SrcFile := [⟨"/w/x.py", false, some [], []⟩]

/-- C10 witness filesystem: a Dart file importing the sibling `b.py`. -/
def c10fs : List SrcFile :=
  [⟨"/t/a.dart", true, none, ["b.py"]⟩,
   ⟨"/t/b.py", true, some [], []⟩]

/-- C6 witness filesystem: just the sibling target `b.py`. -/
def c6fs : List SrcFile := [⟨"/u/b.py", true, some [], []⟩]



/-- Invariant carried through the `_analyze_imports` loop: every file
marked used was collected, every graph key was collected, every key has at
least one target, and every recorded target exists on disk. -/
def Inv (fs : List SrcFile) (allF : List String) (st : AState) : Prop :=
  (∀ x ∈ st.used, x ∈ allF) ∧
  (∀ pr ∈ st.graph, pr.1 ∈ allF ∧ pr.2 ≠ [] ∧ ∀ x ∈ pr.2, pathExists fs x = true)

/-! Generic fold helpers -/

theorem foldl_inv {α β : Type} (f : β → α → β) (P : β → Prop)
    (h : ∀ b a, P b → P (f b a)) : ∀ (l : List α) (b : β), P b → P (l.foldl f b) := by
  intro l
  induction l with
  | nil => intro b hb; exact hb
  | cons x xs ih => intro b hb; exact ih _ (h b x hb)

theorem foldl_inv_mem {α β : Type} (f : β → α → β) (l : List α) (P : β → Prop)
    (h : ∀ b a, a ∈ l → P b → P (f b a)) : ∀ b, P b → P (l.foldl f b) := by
  induction l with
  | nil => intro b hb; exact hb
  | cons x xs ih =>
    intro b hb
    exact ih (fun b a ha hb => h b a (List.mem_cons_of_mem _ ha) hb) _
      (h b x (List.mem_cons_self _ _) hb)

theorem foldl_reach {α β : Type} (f : β → α → β) (P : β → Prop) (a0 : α)
    (hmono : ∀ b a, P b → P (f b a)) (hhit : ∀ b, P (f b a0)) :
    ∀ (l : List α) (b : β), a0 ∈ l → P (l.foldl f b) := by
  intro l
  induction l with
  | nil => intro b h; cases h
  | cons x xs ih =>
    intro b hmem
    rcases List.mem_cons.mp hmem with h | h
    · subst h
      exact foldl_inv f P (fun b a hb => hmono b a hb) xs _ (hhit b)
    · exact ih _ h

/-! Properties of the edge insertion -/

theorem mem_addEdge {g : List (String × List String)} {s t : String}
    {pr : String × List String} (h : pr ∈ addEdge g s t) : pr ∈ g ∨ pr.1 = s := by
  induction g with
  | nil =>
    simp only [addEdge, List.mem_singleton] at h
    right; rw [h]
  | cons e rest ih =>
    obtain ⟨k, ts⟩ := e
    by_cases hk : k = s
    · simp only [addEdge, if_pos hk, List.mem_cons] at h
      rcases h with h | h
      · right; rw [h, hk]
      · left; exact List.mem_cons_of_mem _ h
    · simp only [addEdge, if_neg hk, List.mem_cons] at h
      rcases h with h | h
      · left; rw [h]; exact List.mem_cons_self _ _
      · rcases ih h with h' | h'
        · left; exact List.mem_cons_of_mem _ h'
        · right; exact h'

theorem mem_addEdge_targets {g : List (String × List String)} {s t : String}
    {pr : String × List String} {x : String}
    (h : pr ∈ addEdge g s t) (hx : x ∈ pr.2) :
    x = t ∨ ∃ pr', pr' ∈ g ∧ x ∈ pr'.2 := by
  induction g with
  | nil =>
    simp only [addEdge, List.mem_singleton] at h
    rw [h] at hx
    simp only [List.mem_singleton] at hx
    left; exact hx
  | cons e rest ih =>
    obtain ⟨k, ts⟩ := e
    by_cases hk : k = s
    · simp only [addEdge, if_pos hk, List.mem_cons] at h
      rcases h with h | h
      · rw [h] at hx
        by_cases ht : t ∈ ts
        · simp only [if_pos ht] at hx
          right; exact ⟨(k, ts), List.mem_cons_self _ _, hx⟩
        · simp only [if_neg ht, List.mem_append, List.mem_singleton] at hx
          rcases hx with hx | hx
          · right; exact ⟨(k, ts), List.mem_cons_self _ _, hx⟩
          · left; exact hx
      · right; exact ⟨pr, List.mem_cons_of_mem _ h, hx⟩
    · simp only [addEdge, if_neg hk, List.mem_cons] at h
      rcases h with h | h
      · right; refine ⟨(k, ts), List.mem_cons_self _ _, ?_⟩
        rw [h] at hx; exact hx
      · rcases ih h with h' | ⟨pr', hpr', hx'⟩
        · left; exact h'
        · right; exact ⟨pr', List.mem_cons_of_mem _ hpr', hx'⟩

theorem mem_addEdge_ne_nil {g : List (String × List String)} {s t : String}
    (hg : ∀ pr ∈ g, pr.2 ≠ []) :
    ∀ pr ∈ addEdge g s t, pr.2 ≠ [] := by
  induction g with
  | nil =>
    intro pr h
    simp only [addEdge, List.mem_singleton] at h
    rw [h]; simp
  | cons e rest ih =>
    obtain ⟨k, ts⟩ := e
    intro pr h
    by_cases hk : k = s
    · simp only [addEdge, if_pos hk, List.mem_cons] at h
      rcases h with h | h
      · rw [h]
        by_cases ht : t ∈ ts
        · simp only [if_pos ht]
          exact hg (k, ts) (List.mem_cons_self _ _)
        · simp only [if_neg ht]
          simp
      · exact hg pr (List.mem_cons_of_mem _ h)
    · simp only [addEdge, if_neg hk, List.mem_cons] at h
      rcases h with h | h
      · rw [h]; exact hg (k, ts) (List.mem_cons_self _ _)
      · exact ih (fun pr' hpr' => hg pr' (List.mem_cons_of_mem _ hpr')) pr h

/-! Properties of the resolver -/

theorem resolveImport_spec (fs : List SrcFile) (root : String) (st : AState)
    (src imp : String) :
    (resolveImport fs root st src imp).used = st.used ∧
    (resolveImport fs root st src imp = st ∨
      (pathExists fs (resolveTarget root src imp) = true ∧
       resolveImport fs root st src imp =
         { st with graph := addEdge st.graph src (resolveTarget root src imp) })) := by
  by_cases h : pathExists fs (resolveTarget root src imp) = true
  · have he : resolveImport fs root st src imp =
        { st with graph := addEdge st.graph src (resolveTarget root src imp) } := by
      unfold resolveImport
      rw [if_pos h]
    rw [he]
    exact ⟨rfl, Or.inr ⟨h, rfl⟩⟩
  · have he : resolveImport fs root st src imp = st := by
      unfold resolveImport
      rw [if_neg h]
    rw [he]
    exact ⟨rfl, Or.inl rfl⟩

/-! A single-character replace is a map -/

theorem replaceAllAux_single (a b : Char) :
    ∀ (n : Nat) (s : List Char), s.length ≤ n →
      replaceAllAux [a] [b] n s = s.map (fun c => if c = a then b else c) := by
  intro n
  induction n with
  | zero =>
    intro s hs
    cases s with
    | nil => rfl
    | cons c rest => simp at hs
  | succ n ih =>
    intro s hs
    cases s with
    | nil => rfl
    | cons c rest =>
      simp only [List.length_cons, Nat.succ_le_succ_iff] at hs
      by_cases hc : c = a
      · subst hc
        have hpre : [c].isPrefixOf (c :: rest) = true := by
          simp [List.isPrefixOf]
        simp only [replaceAllAux, hpre, if_true, List.length_singleton,
          List.drop_succ_cons, List.drop_zero, List.map_cons, if_pos rfl]
        rw [ih rest hs]
        rfl
      · have hpre : [a].isPrefixOf (c :: rest) = false := by
          simp [List.isPrefixOf]
          intro h
          exact absurd h.symm hc
        simp only [replaceAllAux, hpre, Bool.false_eq_true, if_false,
          List.map_cons, if_neg hc]
        rw [ih rest hs]

theorem pyReplace_dot (s : String) : pyReplace s "." "/" = dotToSlash s := by
  unfold pyReplace dotToSlash
  congr 1
  exact replaceAllAux_single '.' '/' s.data.length s.data (Nat.le_refl _)

/-! The scan invariant -/

theorem resolveImport_inv {fs : List SrcFile} {allF : List String} {root : String}
    {st : AState} {src imp : String} (hsrc : src ∈ allF)
    (h : Inv fs allF st) : Inv fs allF (resolveImport fs root st src imp) := by
  obtain ⟨hused, hgraph⟩ := h
  rcases (resolveImport_spec fs root st src imp).2 with heq | ⟨hex, heq⟩
  · rw [heq]; exact ⟨hused, hgraph⟩
  · rw [heq]
    refine ⟨hused, ?_⟩
    intro pr hpr
    refine ⟨?_, ?_, ?_⟩
    · rcases mem_addEdge hpr with h' | h'
      · exact (hgraph pr h').1
      · rw [h']; exact hsrc
    · exact mem_addEdge_ne_nil (fun pr' hpr' => (hgraph pr' hpr').2.1) pr hpr
    · intro x hx
      rcases mem_addEdge_targets hpr hx with h' | ⟨pr', hpr', hx'⟩
      · rw [h']; exact hex
      · exact (hgraph pr' hpr').2.2 x hx'

theorem foldl_resolve_inv {fs : List SrcFile} {allF : List String} {root p : String}
    (hp : p ∈ allF) (mods : List String) {st : AState} (h : Inv fs allF st) :
    Inv fs allF (mods.foldl (fun s m => resolveImport fs root s p m) st) :=
  foldl_inv _ _ (fun _ _ hb => resolveImport_inv hp hb) mods st h

theorem foldl_resolve_used (fs : List SrcFile) (root p : String) (mods : List String) :
    ∀ st : AState, (mods.foldl (fun s m => resolveImport fs root s p m) st).used = st.used := by
  induction mods with
  | nil => intro st; rfl
  | cons m ms ih =>
    intro st
    rw [List.foldl_cons, ih, (resolveImport_spec fs root st p m).1]

theorem foldl_resolve_keys (fs : List SrcFile) (root p : String) (mods : List String) :
    ∀ (st : AState) (pr : String × List String),
      pr ∈ (mods.foldl (fun s m => resolveImport fs root s p m) st).graph →
      pr ∈ st.graph ∨ pr.1 = p := by
  induction mods with
  | nil => intro st pr h; exact Or.inl h
  | cons m ms ih =>
    intro st pr h
    rw [List.foldl_cons] at h
    rcases ih _ pr h with h' | h'
    · rcases (resolveImport_spec fs root st p m).2 with heq | ⟨_, heq⟩
      · rw [heq] at h'; exact Or.inl h'
      · rw [heq] at h'
        exact mem_addEdge h'
    · exact Or.inr h'

theorem inv_push_used {fs : List SrcFile} {allF : List String} {st : AState}
    {p : String} (hp : p ∈ allF) (h : Inv fs allF st) :
    Inv fs allF { st with used := st.used ++ [p] } := by
  obtain ⟨hused, hgraph⟩ := h
  refine ⟨?_, hgraph⟩
  intro x hx
  rcases List.mem_append.mp hx with h' | h'
  · exact hused x h'
  · rw [List.mem_singleton.mp h']; exact hp

/-! Properties of the per-file scan step -/

theorem analyzeOne_inv {fs : List SrcFile} {allF : List String} {root : String}
    {st : AState} {p : String} (hp : p ∈ allF) (h : Inv fs allF st) :
    Inv fs allF (analyzeOne fs root st p) := by
  unfold analyzeOne
  cases hfind : fs.find? (fun f => f.path == p) with
  | none => exact h
  | some f =>
    by_cases hr : f.readable = true
    · simp only [hr, if_true]
      apply inv_push_used hp
      by_cases hpy : strEndsWith p ".py" = true
      · simp only [hpy, if_true]
        cases f.pyAst with
        | some mods => exact foldl_resolve_inv hp mods h
        | none => exact h
      · simp only [Bool.not_eq_true] at hpy
        simp only [hpy, Bool.false_eq_true, if_false]
        by_cases hd : strEndsWith p ".dart" = true
        · simp only [hd, if_true]
          exact foldl_resolve_inv hp f.dartImports h
        · simp only [Bool.not_eq_true] at hd
          simp only [hd, Bool.false_eq_true, if_false]
          exact h
    · simp only [Bool.not_eq_true] at hr
      simp only [hr, Bool.false_eq_true, if_false]
      exact h

theorem analyzeOne_used_cases (fs : List SrcFile) (root : String) (st : AState) (p : String) :
    (analyzeOne fs root st p).used = st.used ∨
    (analyzeOne fs root st p).used = st.used ++ [p] := by
  unfold analyzeOne
  cases hfind : fs.find? (fun f => f.path == p) with
  | none => exact Or.inl rfl
  | some f =>
    by_cases hr : f.readable = true
    · simp only [hr, if_true]
      right
      by_cases hpy : strEndsWith p ".py" = true
      · simp only [hpy, if_true]
        cases f.pyAst with
        | some mods => rw [foldl_resolve_used]
        | none => rfl
      · simp only [Bool.not_eq_true] at hpy
        simp only [hpy, Bool.false_eq_true, if_false]
        by_cases hd : strEndsWith p ".dart" = true
        · simp only [hd, if_true]
          rw [foldl_resolve_used]
        · simp only [Bool.not_eq_true] at hd
          simp only [hd, Bool.false_eq_true, if_false]
    · simp only [Bool.not_eq_true] at hr
      simp only [hr, Bool.false_eq_true, if_false]
      simp

theorem analyzeOne_used_mono {fs : List SrcFile} {root : String} {st : AState}
    {p x : String} (h : x ∈ st.used) : x ∈ (analyzeOne fs root st p).used := by
  rcases analyzeOne_used_cases fs root st p with he | he
  · rw [he]; exact h
  · rw [he]; exact List.mem_append_left _ h

theorem analyzeOne_graph_keys (fs : List SrcFile) (root : String) (st : AState) (p : String) :
    ∀ pr ∈ (analyzeOne fs root st p).graph, pr ∈ st.graph ∨ pr.1 = p := by
  unfold analyzeOne
  cases hfind : fs.find? (fun f => f.path == p) with
  | none => intro pr hpr; exact Or.inl hpr
  | some f =>
    by_cases hr : f.readable = true
    · simp only [hr, if_true]
      by_cases hpy : strEndsWith p ".py" = true
      · simp only [hpy, if_true]
        cases f.pyAst with
        | some mods => intro pr hpr; exact foldl_resolve_keys fs root p mods st pr hpr
        | none => intro pr hpr; exact Or.inl hpr
      · simp only [Bool.not_eq_true] at hpy
        simp only [hpy, Bool.false_eq_true, if_false]
        by_cases hd : strEndsWith p ".dart" = true
        · simp only [hd, if_true]
          intro pr hpr
          exact foldl_resolve_keys fs root p f.dartImports st pr hpr
        · simp only [Bool.not_eq_true] at hd
          simp only [hd, Bool.false_eq_true, if_false]
          intro pr hpr; exact Or.inl hpr
    · simp only [Bool.not_eq_true] at hr
      simp only [hr, Bool.false_eq_true, if_false]
      intro pr hpr; exact Or.inl hpr

theorem analyzeOne_parsefail {fs : List SrcFile} {root : String} {st : AState}
    {p : String} {f : SrcFile}
    (hfind : fs.find? (fun g => g.path == p) = some f) (hr : f.readable = true)
    (hpy : strEndsWith p ".py" = true) (hast : f.pyAst = none) :
    analyzeOne fs root st p = { st with used := st.used ++ [p] } := by
  unfold analyzeOne
  rw [hfind]
  simp only [hr, if_true, hpy, hast]

theorem analyzeOne_unreadable {fs : List SrcFile} {root : String} {st : AState}
    {p : String} {f : SrcFile}
    (hfind : fs.find? (fun g => g.path == p) = some f) (hr : f.readable = false) :
    analyzeOne fs root st p = st := by
  unfold analyzeOne
  rw [hfind]
  simp only [hr, Bool.false_eq_true, if_false]

theorem analyzeOne_adds_used {fs : List SrcFile} {root : String} {st : AState}
    {p : String} {f : SrcFile}
    (hfind : fs.find? (fun g => g.path == p) = some f) (hr : f.readable = true) :
    p ∈ (analyzeOne fs root st p).used := by
  unfold analyzeOne
  rw [hfind]
  simp only [hr, if_true]
  exact List.mem_append_right _ (List.mem_singleton.mpr rfl)

/-! Lookup on a duplicate-free filesystem -/

theorem find_path_eq {fs : List SrcFile} (hnd : (fs.map SrcFile.path).Nodup)
    {f : SrcFile} (hf : f ∈ fs) :
    fs.find? (fun g => g.path == f.path) = some f := by
  induction fs with
  | nil => cases hf
  | cons g rest ih =>
    rw [List.map_cons, List.nodup_cons] at hnd
    rcases List.mem_cons.mp hf with h | h
    · rw [h]
      exact List.find?_cons_of_pos _ (by simp)
    · have hne : ¬ (g.path == f.path) = true := by
        simp only [beq_iff_eq]
        intro hq
        exact hnd.1 (hq ▸ List.mem_map_of_mem SrcFile.path h)
      rw [@List.find?_cons_of_neg _ (fun t => t.path == f.path) g rest hne]
      exact ih hnd.2 h

/-! Collection membership -/

theorem mem_collect_of_ext {fs : List SrcFile} {f : SrcFile} (hf : f ∈ fs)
    (hext : (strEndsWith f.path ".py" || strEndsWith f.path ".dart" ||
      strEndsWith f.path ".kt" || strEndsWith f.path ".java" ||
      strEndsWith f.path ".xml") = true) :
    f.path ∈ collectAllFiles fs := by
  unfold collectAllFiles
  exact List.mem_map_of_mem _ (List.mem_filter.mpr ⟨hf, hext⟩)

/-! The invariant holds at the end of the scan -/

theorem analyzeImports_inv (fs : List SrcFile) (root : String) :
    Inv fs (collectAllFiles fs) (analyzeImports fs root (collectAllFiles fs)) := by
  unfold analyzeImports
  apply foldl_inv_mem (analyzeOne fs root) (collectAllFiles fs)
    (Inv fs (collectAllFiles fs))
    (fun st p hp hinv => analyzeOne_inv hp hinv)
  exact ⟨fun x hx => absurd hx (List.not_mem_nil x),
    fun pr hpr => absurd hpr (List.not_mem_nil pr)⟩

/-! Claims -/

/-- Claim C1 (refuted as stated): on the a/b/c scenario the code does NOT
produce DependencyGraph = {a.py: [b.py]}, UsedSet = {a.py, b.py},
UnusedSet = {c.py}. -/
theorem spec_c1_counterexample :
    ¬ ((analyzeProject "/proj" c1fs).graph = [("/proj/a.py", ["/proj/b.py"])] ∧
       (analyzeProject "/proj" c1fs).usedSet = {"/proj/a.py", "/proj/b.py"} ∧
       (analyzeProject "/proj" c1fs).unusedSet = {"/proj/c.py"}) := by decide

/-- Claim C1 (amended): on the a/b/c scenario the dotted Python raw
module `b` resolves to the candidate `b.dart`, which does not exist, so
the DependencyGraph is empty; every successfully scanned file is used, so
UsedSet = {a.py, b.py, c.py} and UnusedSet = ∅. -/
theorem spec_c1_amended :
    (analyzeProject "/proj" c1fs).graph = [] ∧
    (analyzeProject "/proj" c1fs).usedSet =
      {"/proj/a.py", "/proj/b.py", "/proj/c.py"} ∧
    (analyzeProject "/proj" c1fs).unusedSet = (∅ : Finset String) := by decide

/-- Claim C2 (refuted as stated): a resolution target that exists on disk
but was not collected (here `lib/app/x.txt`, a non-collected extension)
enters UsedSet, so UsedSet ∪ UnusedSet strictly exceeds FileUniverse. -/
theorem spec_c2_counterexample :
    (analyzeProject "/p" c2fs).usedSet ∪ (analyzeProject "/p" c2fs).unusedSet ≠
      (analyzeProject "/p" c2fs).fileUniverse := by decide

/-- Claim C2 (amended): after every analysis run, UsedSet and UnusedSet
are disjoint and their union contains FileUniverse; the union equals
FileUniverse when every edge target belongs to FileUniverse. -/
theorem spec_c2_amended (root : String) (fs : List SrcFile) :
    (analyzeProject root fs).usedSet ∩ (analyzeProject root fs).unusedSet = ∅ ∧
    (analyzeProject root fs).fileUniverse ⊆
      (analyzeProject root fs).usedSet ∪ (analyzeProject root fs).unusedSet ∧
    ((graphTargets (analyzeProject root fs).graph).toFinset ⊆
        (analyzeProject root fs).fileUniverse →
      (analyzeProject root fs).usedSet ∪ (analyzeProject root fs).unusedSet =
        (analyzeProject root fs).fileUniverse) := by
  have hused : ∀ x ∈ (analyzeImports fs root (collectAllFiles fs)).used,
      x ∈ collectAllFiles fs := (analyzeImports_inv fs root).1
  have hU : (analyzeProject root fs).usedSet =
      (analyzeImports fs root (collectAllFiles fs)).used.toFinset ∪
      (graphTargets (analyzeImports fs root (collectAllFiles fs)).graph).toFinset := rfl
  have hV : (analyzeProject root fs).unusedSet =
      (analyzeProject root fs).fileUniverse \ (analyzeProject root fs).usedSet := rfl
  have hF : (analyzeProject root fs).fileUniverse = (collectAllFiles fs).toFinset := rfl
  refine ⟨?_, ?_, ?_⟩
  · rw [hV]
    ext x
    simp only [Finset.mem_inter, Finset.mem_sdiff, Finset.not_mem_empty, iff_false]
    rintro ⟨hxu, _, hxn⟩
    exact hxn hxu
  · intro x hx
    by_cases hu : x ∈ (analyzeProject root fs).usedSet
    · exact Finset.mem_union_left _ hu
    · refine Finset.mem_union_right _ ?_
      rw [hV]
      exact Finset.mem_sdiff.mpr ⟨hx, hu⟩
  · intro htgt
    apply Finset.Subset.antisymm
    · intro x hx
      rcases Finset.mem_union.mp hx with h | h
      · rw [hU] at h
        rcases Finset.mem_union.mp h with h | h
        · rw [hF]
          exact List.mem_toFinset.mpr (hused x (List.mem_toFinset.mp h))
        · exact htgt h
      · rw [hV] at h
        exact (Finset.mem_sdiff.mp h).1
    · intro x hx
      by_cases hu : x ∈ (analyzeProject root fs).usedSet
      · exact Finset.mem_union_left _ hu
      · refine Finset.mem_union_right _ ?_
        rw [hV]
        exact Finset.mem_sdiff.mpr ⟨hx, hu⟩

/-- Claim C2 witness: concrete run where every edge target is collected,
so the amended partition is exact. -/
theorem spec_c2_witness :
    (analyzeProject "/q" c2wfs).usedSet ∩ (analyzeProject "/q" c2wfs).unusedSet = ∅ ∧
    (analyzeProject "/q" c2wfs).fileUniverse ⊆
      (analyzeProject "/q" c2wfs).usedSet ∪ (analyzeProject "/q" c2wfs).unusedSet ∧
    (analyzeProject "/q" c2wfs).usedSet ∪ (analyzeProject "/q" c2wfs).unusedSet =
      (analyzeProject "/q" c2wfs).fileUniverse :=
  ⟨(spec_c2_amended "/q" c2wfs).1, (spec_c2_amended "/q" c2wfs).2.1,
    (spec_c2_amended "/q" c2wfs).2.2 (by decide)⟩

/-- Claim C3 (confirmed): a candidate path that does not exist on disk
produces no edge and leaves the state unchanged, and conversely every
target recorded anywhere in the final DependencyGraph exists on disk. -/
theorem spec_c3 :
    (∀ (fs : List SrcFile) (root : String) (st : AState) (src imp : String),
      pathExists fs (resolveTarget root src imp) = false →
      resolveImport fs root st src imp = st) ∧
    (∀ (root : String) (fs : List SrcFile),
      ∀ pr ∈ (analyzeProject root fs).graph, ∀ x ∈ pr.2, pathExists fs x = true) := by
  constructor
  · intro fs root st src imp h
    rcases (resolveImport_spec fs root st src imp).2 with heq | ⟨hex, _⟩
    · exact heq
    · rw [h] at hex
      exact (Bool.false_ne_true hex).elim
  · intro root fs pr hpr x hx
    have hinv := (analyzeImports_inv fs root).2
    have hg : (analyzeProject root fs).graph =
        (analyzeImports fs root (collectAllFiles fs)).graph := rfl
    rw [hg] at hpr
    exact (hinv pr hpr).2.2 x hx

/-- Claim C3 witness: with an empty disk nothing resolves, and on a
concrete run with one edge the target exists. -/
theorem spec_c3_witness :
    resolveImport [] "/x" ⟨[], []⟩ "/x/a.py" "b" = (⟨[], []⟩ : AState) ∧
    pathExists c3fs "/s/n.py" = true :=
  ⟨spec_c3.1 [] "/x" ⟨[], []⟩ "/x/a.py" "b" (by decide),
   spec_c3.2 "/s" c3fs ("/s/m.dart", ["/s/n.py"]) (by decide) "/s/n.py" (by decide)⟩

/-- Claim C4 (confirmed): a raw import with no `.py` suffix and no
`package:` prefix resolves by replacing every dot with the separator,
appending `.dart`, joining to the importing file's directory and
normalizing. -/
theorem spec_c4 (root src imp : String) (h1 : strEndsWith imp ".py" = false)
    (h2 : strStartsWith imp "package:" = false) :
    resolveTarget root src imp =
      normpath (joinP (dirname src) (dotToSlash imp ++ ".dart")) := by
  unfold resolveTarget
  rw [h1, h2]
  simp only [Bool.false_eq_true, if_false]
  rw [pyReplace_dot]

/-- Claim C4 witness: the dotted module `b` imported from `/proj/a.py`. -/
theorem spec_c4_witness :
    strEndsWith "b" ".py" = false ∧ strStartsWith "b" "package:" = false ∧
    resolveTarget "/proj" "/proj/a.py" "b" =
      normpath (joinP (dirname "/proj/a.py") (dotToSlash "b" ++ ".dart")) :=
  ⟨by decide, by decide, spec_c4 "/proj" "/proj/a.py" "b" (by decide) (by decide)⟩

/-- Claim C5 (refuted as stated): a raw import that begins with
`package:` but ends with `.py` is captured by the earlier `.py` branch
and is resolved relative to the importing file's directory, not the
project `lib` directory. -/
theorem spec_c5_counterexample :
    strStartsWith "package:app/u.py" "package:" = true ∧
    resolveTarget "/r" "/r/main.dart" "package:app/u.py" = "/r/package:app/u.py" ∧
    resolveTarget "/r" "/r/main.dart" "package:app/u.py" ≠
      normpath (joinP (joinP "/r" "lib")
        (pyReplace (pyReplace "package:app/u.py" "package:" "") "/" "/")) := by decide

/-- Claim C5 (amended): a raw import that begins with `package:` and does
not end with `.py` resolves under `root/lib` after `str.replace` removes
every occurrence of the marker and converts separators; the `main.dart` →
`lib/app/utils.dart` scenario edge is recorded. -/
theorem spec_c5_amended :
    (∀ root src imp : String, strStartsWith imp "package:" = true →
      strEndsWith imp ".py" = false →
      resolveTarget root src imp =
        normpath (joinP (joinP root "lib")
          (pyReplace (pyReplace imp "package:" "") "/" "/"))) ∧
    (analyzeProject "/r" c5fs).graph = [("/r/main.dart", ["/r/lib/app/utils.dart"])] := by
  constructor
  · intro root src imp h1 h2
    unfold resolveTarget
    rw [h1, h2]
    simp only [Bool.false_eq_true, if_false, if_true]
  · decide

/-- Claim C5 witness: the scenario raw import resolves under `lib`. -/
theorem spec_c5_witness :
    resolveTarget "/r" "/r/main.dart" "package:app/utils.dart" =
      normpath (joinP (joinP "/r" "lib")
        (pyReplace (pyReplace "package:app/utils.dart" "package:" "") "/" "/")) :=
  spec_c5_amended.1 "/r" "/r/main.dart" "package:app/utils.dart" (by decide) (by decide)

/-- Claim C6 (confirmed): a raw import ending in `.py` that names a
sibling file (no separator) existing next to the importing file is
joined with the importing file's directory, normalized, and recorded as
an edge to that sibling path. -/
theorem spec_c6 (fs : List SrcFile) (root : String) (st : AState) (src imp : String)
    (h1 : strEndsWith imp ".py" = true) (_h2 : '/' ∉ imp.data)
    (h3 : pathExists fs (normpath (joinP (dirname src) imp)) = true) :
    resolveImport fs root st src imp =
      { st with graph := addEdge st.graph src (normpath (joinP (dirname src) imp)) } := by
  have ht : resolveTarget root src imp = normpath (joinP (dirname src) imp) := by
    unfold resolveTarget
    rw [h1]
    simp
  unfold resolveImport
  rw [ht, if_pos h3]

/-- Claim C6 witness: `b.py` imported from `/u/a.py` with `/u/b.py` on
disk. -/
theorem spec_c6_witness :
    resolveImport c6fs "/u" ⟨[], []⟩ "/u/a.py" "b.py" =
      (⟨addEdge [] "/u/a.py" (normpath (joinP (dirname "/u/a.py") "b.py")), []⟩ : AState) :=
  spec_c6 c6fs "/u" ⟨[], []⟩ "/u/a.py" "b.py" (by decide) (by decide) (by decide)

/-- Claim C7 (confirmed): the resolver is a total function that either
leaves the state unchanged or records exactly one edge to an existing
file; the used-file set is never touched. (Exceptions cannot occur in the
model: every modelled operation is total, so the `except` branch at line
105 is dead.) -/
theorem spec_c7 (fs : List SrcFile) (root : String) (st : AState) (src imp : String) :
    (resolveImport fs root st src imp).used = st.used ∧
    (resolveImport fs root st src imp = st ∨
      (pathExists fs (resolveTarget root src imp) = true ∧
       resolveImport fs root st src imp =
         { st with graph := addEdge st.graph src (resolveTarget root src imp) })) :=
  resolveImport_spec fs root st src imp

/-- Claim C8 (confirmed): a readable `.py` file whose content fails to
parse is still marked used, and it contributes no outgoing edges (it is
never a key of the final graph). -/
theorem spec_c8 (fs : List SrcFile) (root : String) (f : SrcFile)
    (hnd : (fs.map SrcFile.path).Nodup) (hf : f ∈ fs)
    (hr : f.readable = true) (hpy : strEndsWith f.path ".py" = true)
    (hast : f.pyAst = none) :
    f.path ∈ (analyzeProject root fs).usedSet ∧
    ∀ pr ∈ (analyzeProject root fs).graph, pr.1 ≠ f.path := by
  have hfind := find_path_eq hnd hf
  have hcol : f.path ∈ collectAllFiles fs :=
    mem_collect_of_ext hf (by rw [hpy]; rfl)
  constructor
  · have husedl : f.path ∈ (analyzeImports fs root (collectAllFiles fs)).used := by
      unfold analyzeImports
      exact foldl_reach (analyzeOne fs root) (fun st => f.path ∈ st.used) f.path
        (fun st q hmem => analyzeOne_used_mono hmem)
        (fun st => analyzeOne_adds_used hfind hr)
        (collectAllFiles fs) _ hcol
    have hU : (analyzeProject root fs).usedSet =
        (analyzeImports fs root (collectAllFiles fs)).used.toFinset ∪
        (graphTargets (analyzeImports fs root (collectAllFiles fs)).graph).toFinset := rfl
    rw [hU]
    exact Finset.mem_union_left _ (List.mem_toFinset.mpr husedl)
  · have hkey : ∀ pr ∈ (analyzeImports fs root (collectAllFiles fs)).graph,
        pr.1 ≠ f.path := by
      unfold analyzeImports
      apply foldl_inv (analyzeOne fs root) (fun st => ∀ pr ∈ st.graph, pr.1 ≠ f.path)
      · intro st q hstep pr hpr
        by_cases hq : q = f.path
        · subst hq
          rw [analyzeOne_parsefail hfind hr hpy hast] at hpr
          exact hstep pr hpr
        · rcases analyzeOne_graph_keys fs root st q pr hpr with h' | h'
          · exact hstep pr h'
          · rw [h']; exact hq
      · intro pr hpr; cases hpr
    intro pr hpr
    exact hkey pr hpr

/-- Claim C8 witness: a single unparsable Python file ends up used and
sources no edges. -/
theorem spec_c8_witness :
    "/v/bad.py" ∈ (analyzeProject "/v" c8fs).usedSet ∧
    ∀ pr ∈ (analyzeProject "/v" c8fs).graph, pr.1 ≠ "/v/bad.py" :=
  spec_c8 c8fs "/v" ⟨"/v/bad.py", true, none, []⟩ (by decide) (by decide) rfl
    (by decide) rfl

/-- Claim C9 (confirmed): a collected file that cannot be opened is never
marked used as a scanned source yet stays in FileUniverse, so it falls
into UnusedSet whenever it is not a resolution target. -/
theorem spec_c9 (fs : List SrcFile) (root : String) (f : SrcFile)
    (hnd : (fs.map SrcFile.path).Nodup) (hf : f ∈ fs)
    (hr : f.readable = false) (hcol : f.path ∈ collectAllFiles fs) :
    f.path ∈ (analyzeProject root fs).fileUniverse ∧
    f.path ∉ (analyzeImports fs root (collectAllFiles fs)).used ∧
    (f.path ∉ (graphTargets (analyzeProject root fs).graph).toFinset →
      f.path ∈ (analyzeProject root fs).unusedSet) := by
  have hfind := find_path_eq hnd hf
  have hnotused : f.path ∉ (analyzeImports fs root (collectAllFiles fs)).used := by
    unfold analyzeImports
    apply foldl_inv (analyzeOne fs root) (fun st => f.path ∉ st.used)
    · intro st q hstep hmem
      by_cases hq : q = f.path
      · subst hq
        rw [analyzeOne_unreadable hfind hr] at hmem
        exact hstep hmem
      · rcases analyzeOne_used_cases fs root st q with he | he
        · rw [he] at hmem; exact hstep hmem
        · rw [he] at hmem
          rcases List.mem_append.mp hmem with h' | h'
          · exact hstep h'
          · exact hq (List.mem_singleton.mp h').symm
    · intro hmem; cases hmem
  refine ⟨List.mem_toFinset.mpr hcol, hnotused, ?_⟩
  intro htgt
  have hV : (analyzeProject root fs).unusedSet =
      (collectAllFiles fs).toFinset \
      ((analyzeImports fs root (collectAllFiles fs)).used.toFinset ∪
       (graphTargets (analyzeImports fs root (collectAllFiles fs)).graph).toFinset) := rfl
  rw [hV]
  refine Finset.mem_sdiff.mpr ⟨List.mem_toFinset.mpr hcol, ?_⟩
  intro hmem
  rcases Finset.mem_union.mp hmem with h' | h'
  · exact hnotused (List.mem_toFinset.mp h')
  · exact htgt h'

/-- Claim C9 witness: one unreadable collected file, classified unused. -/
theorem spec_c9_witness :
    "/w/x.py" ∈ (analyzeProject "/w" c9fs).fileUniverse ∧
    "/w/x.py" ∉ (analyzeImports c9fs "/w" (collectAllFiles c9fs)).used ∧
    "/w/x.py" ∈ (analyzeProject "/w" c9fs).unusedSet := by
  have h := spec_c9 c9fs "/w" ⟨"/w/x.py", false, some [], []⟩ (by decide) (by decide)
    rfl (by decide)
  exact ⟨h.1, h.2.1, h.2.2 (by decide)⟩

/-- Claim C10 (confirmed): every key of the final DependencyGraph is a
collected file, and every key's target list is nonempty (a key is created
only when an edge is inserted). -/
theorem spec_c10 (root : String) (fs : List SrcFile) :
    ∀ pr ∈ (analyzeProject root fs).graph,
      pr.1 ∈ (analyzeProject root fs).fileUniverse ∧ pr.2 ≠ [] := by
  intro pr hpr
  have hinv := (analyzeImports_inv fs root).2
  have hg : (analyzeProject root fs).graph =
      (analyzeImports fs root (collectAllFiles fs)).graph := rfl
  rw [hg] at hpr
  exact ⟨List.mem_toFinset.mpr (hinv pr hpr).1, (hinv pr hpr).2.1⟩

/-- Claim C10 witness: the single edge of a concrete run has a collected
key and a nonempty target list. -/
theorem spec_c10_witness :
    ("/t/a.dart", ["/t/b.py"]).1 ∈ (analyzeProject "/t" c10fs).fileUniverse ∧
    ("/t/a.dart", ["/t/b.py"]).2 ≠ ([] : List String) :=
  spec_c10 "/t" c10fs ("/t/a.dart", ["/t/b.py"]) (by decide)

end PA
